import Mathlib

/-!
# Verification of the nicepay-mcp markdown indexer and parser

Shallow embedding of `src/utils/docIndexer.ts` and `src/utils/markdownParser.ts`
(classes `DocumentIndexer` and `MarkdownParser`).  Strings are modelled as
`List Char` (JavaScript strings are sequences of code units; all the texts in
play are BMP, so one `Char` per code unit is faithful).  JavaScript regular
expressions are modelled by equivalent deterministic scanners; where the regex
engine's backtracking matters it is reproduced explicitly and noted.
-/

namespace NicePay

/-- Abbreviation: a JavaScript string as a list of characters. -/
abbrev JStr := List Char

/-- Convert a Lean string literal to the model representation. -/
def str (s : String) : JStr := s.data

/-- JavaScript `\s` / `String.prototype.trim` whitespace class
(space, tab, LF, VT, FF, CR, NBSP, OGHAM space, the Unicode space
separators, line/paragraph separators U+2028/U+2029, narrow/medium
spaces, ideographic space and BOM), written by code point. -/
def isJsSpace (c : Char) : Bool :=
  c = ' ' ∨ c = '\t' ∨ c = '\n' ∨ c.toNat = 0x0b ∨ c.toNat = 0x0c ∨ c = '\r' ∨
  c.toNat = 0xa0 ∨ c.toNat = 0x1680 ∨
  (0x2000 ≤ c.toNat ∧ c.toNat ≤ 0x200a) ∨
  c.toNat = 0x2028 ∨ c.toNat = 0x2029 ∨ c.toNat = 0x202f ∨ c.toNat = 0x205f ∨
  c.toNat = 0x3000 ∨ c.toNat = 0xfeff

/-- JavaScript regex line terminators (the characters `.` does not match):
LF, CR, U+2028, U+2029. -/
def isLineTerm (c : Char) : Bool :=
  c = '\n' ∨ c = '\r' ∨ c.toNat = 0x2028 ∨ c.toNat = 0x2029

/-- Regex class `[a-zA-Z]`, by code point (0x61–0x7a, 0x41–0x5a). -/
def isLatinLetter (c : Char) : Bool :=
  (0x61 ≤ c.toNat ∧ c.toNat ≤ 0x7a) ∨ (0x41 ≤ c.toNat ∧ c.toNat ≤ 0x5a)

/-- Regex class `[0-9]`, by code point. -/
def isAsciiDigit (c : Char) : Bool := 0x30 ≤ c.toNat ∧ c.toNat ≤ 0x39

/-- JavaScript `\w`: ASCII letters, digits and underscore. -/
def isWordChar (c : Char) : Bool :=
  isLatinLetter c ∨ isAsciiDigit c ∨ c = '_'

/-- Hangul syllable block, regex class `[가-힣]`. -/
def isHangul (c : Char) : Bool := 0xAC00 ≤ c.toNat ∧ c.toNat ≤ 0xD7A3

/-- Regex class `[a-zA-Z0-9]`. -/
def isLatinAlnum (c : Char) : Bool := isLatinLetter c ∨ isAsciiDigit c

/-- `String.prototype.toLowerCase` (ASCII case mapping; the characters in
play — ASCII and Hangul — are unaffected beyond A–Z). -/
def toLowerStr (s : JStr) : JStr := s.map Char.toLower

/-- `String.prototype.trim`. -/
def jsTrim (s : JStr) : JStr :=
  ((s.dropWhile isJsSpace).reverse.dropWhile isJsSpace).reverse

/-- `String.prototype.includes` (substring containment; the empty string is
contained in every string, as in JavaScript). -/
def containsSub (s sub : JStr) : Bool :=
  match s with
  | [] => sub.isEmpty
  | _ :: t => sub.isPrefixOf s || containsSub t sub

/-- `String.prototype.split(sep)` for a single-character separator. -/
def splitOnChar (sep : Char) : JStr → List JStr
  | [] => [[]]
  | c :: rest =>
    if c = sep then [] :: splitOnChar sep rest
    else
      match splitOnChar sep rest with
      | [] => [[c]]
      | p :: ps => (c :: p) :: ps

/-- `content.split('\n')`. -/
def splitLines (s : JStr) : List JStr := splitOnChar '\n' s

/-- `Array.prototype.join('\n')`. -/
def joinLines (ls : List JStr) : JStr := List.intercalate ['\n'] ls

end NicePay

namespace NicePay

/-! ## DocumentIndexer.generateAnchor (docIndexer.ts lines 165–172) -/

/-- Helper for `replaceRuns`: the boolean records whether the previous
character was part of a run being replaced. -/
def replaceRunsAux (p : Char → Bool) (r : Char) : JStr → Bool → JStr
  | [], _ => []
  | c :: rest, inRun =>
    if p c then (if inRun then [] else [r]) ++ replaceRunsAux p r rest true
    else c :: replaceRunsAux p r rest false

/-- Global regex replacement of each maximal run of characters matching the
single-character class `p` by the single character `r` (models the
JavaScript global replace of the pattern "one or more `p`" with `r`). -/
def replaceRuns (p : Char → Bool) (r : Char) (s : JStr) : JStr :=
  replaceRunsAux p r s false

/-- The character class kept by the replace that deletes every character
that is not a word character, whitespace or hyphen. -/
def isAnchorKeep (c : Char) : Bool := isWordChar c ∨ isJsSpace c ∨ c = '-'

/-- `DocumentIndexer.generateAnchor`: lowercase, delete every character
outside `[\w\s-]`, replace whitespace runs with `'-'`, replace hyphen runs
with `'-'`, then `trim()`. -/
def generateAnchor (title : JStr) : JStr :=
  jsTrim (replaceRuns (fun c => c = '-') '-'
    (replaceRuns isJsSpace '-'
      ((toLowerStr title).filter isAnchorKeep)))

/-- The anchor pipeline as described by the spec sentence of claim C4:
lowercase, strip non-word/non-space/non-hyphen characters, collapse
whitespace runs to single hyphens, then trim leading and trailing *hyphens*. -/
def claimAnchor (title : JStr) : JStr :=
  let collapsed := replaceRuns isJsSpace '-'
    ((toLowerStr title).filter isAnchorKeep)
  ((collapsed.dropWhile (fun c => c = '-')).reverse.dropWhile
    (fun c => c = '-')).reverse

/-! ## Heading matching and sections
(`MarkdownParser.extractSections`, markdownParser.ts lines 279–342, and the
identical scan in `DocumentIndexer.parseMarkdown`, docIndexer.ts 109–160).

A line is matched against the regex "start, one to six `#`, one or more
whitespace characters, one or more arbitrary non-line-terminator
characters, end".  The scanner below reproduces the regex exactly,
including the backtracking case in which the heading text is all
whitespace: there the engine gives the final whitespace character to the
`.+` group (so a `#` followed by two or more spaces *is* a heading, with a
title that trims to empty). -/

/-- Match a line against the heading regex; returns the heading level and
the raw (untrimmed) text captured by the second group. -/
def headingMatch (l : JStr) : Option (Nat × JStr) :=
  let n := (l.takeWhile (fun c => c = '#')).length
  if 1 ≤ n ∧ n ≤ 6 then
    let rest := l.drop n
    let ws := rest.takeWhile isJsSpace
    let text := rest.drop ws.length
    if ws.length = 0 then none
    else if text.length = 0 then
      match ws.getLast? with
      | some c => if 2 ≤ ws.length ∧ ¬ isLineTerm c then some (n, [c]) else none
      | none => none
    else if text.all (fun c => ¬ isLineTerm c) then some (n, text)
    else none
  else none

/-- Is the line a heading line? -/
def isHeadingLine (l : JStr) : Bool := (headingMatch l).isSome

/-- Negation of `isHeadingLine`, the predicate satisfied by the lines
collected into the current section. -/
def notHeading (l : JStr) : Bool := !(isHeadingLine l)

/-- One extracted section.  The source stores `content` as the collected
lines joined with newlines; the model stores the collected lines and
exposes the join as `Sec.content`. -/
structure Sec where
  level : Nat
  title : JStr
  contentLines : List JStr
  lineStart : Nat
  lineEnd : Nat
deriving DecidableEq, Repr

/-- The `content` string field of a section: collected lines joined with
newlines, exactly as the source's `content.join('\n')`. -/
def Sec.content (s : Sec) : JStr := joinLines s.contentLines

/-- The in-progress section of the scan (`currentSection` in the source). -/
structure PartSec where
  level : Nat
  title : JStr
  contentLines : List JStr
  lineStart : Nat
deriving DecidableEq, Repr

/-- Finalize the in-progress section at the given last line index. -/
def finishSec (c : PartSec) (lineEnd : Nat) : Sec :=
  ⟨c.level, c.title, c.contentLines, c.lineStart, lineEnd⟩

/-- The section-splitting loop of `extractSections`: iterate over the
lines with the current line index and the optional in-progress section. -/
def secsLoop : List JStr → Nat → Option PartSec → List Sec
  | [], _, none => []
  | [], i, some c => [finishSec c (i - 1)]
  | l :: rest, i, cur =>
    match headingMatch l with
    | some (lv, text) =>
      (match cur with
       | some c => [finishSec c (i - 1)]
       | none => []) ++
      secsLoop rest (i + 1) (some ⟨lv, jsTrim text, [], i⟩)
    | none =>
      match cur with
      | some c =>
        secsLoop rest (i + 1)
          (some ⟨c.level, c.title, c.contentLines ++ [l], c.lineStart⟩)
      | none => secsLoop rest (i + 1) none

/-- `MarkdownParser.extractSections`. -/
def extractSections (content : JStr) : List Sec :=
  secsLoop (splitLines content) 0 none

/-! ## Keyword extraction (`DocumentIndexer.extractKeywords`, docIndexer.ts
lines 177–192). -/

/-- The global-regex token scan over the content: at each position the
engine first tries a maximal run of Hangul syllables, then a maximal run
`[a-zA-Z]+[a-zA-Z0-9]*` (a token that starts with a Latin letter and
continues through Latin letters and digits); otherwise it advances one
character. -/
def tokenizeAux : JStr → Nat → List JStr
  | [], _ => []
  | _ :: rest, k+1 => tokenizeAux rest k
  | c :: rest, 0 =>
    if isHangul c then
      (c :: rest.takeWhile isHangul) ::
      tokenizeAux rest (rest.takeWhile isHangul).length
    else if isLatinLetter c then
      (c :: rest.takeWhile isLatinAlnum) ::
      tokenizeAux rest (rest.takeWhile isLatinAlnum).length
    else tokenizeAux rest 0

/-- The token scan proper: the counter argument of `tokenizeAux` skips
the characters already consumed by the emitted token, so the scan
resumes right after each match, as the regex engine does. -/
def tokenize (s : JStr) : List JStr := tokenizeAux s 0

/-- Skip-counter scan for the maximal runs of non-whitespace
characters. -/
def nonWsRunsAux : JStr → Nat → List JStr
  | [], _ => []
  | _ :: rest, k+1 => nonWsRunsAux rest k
  | c :: rest, 0 =>
    if isJsSpace c then nonWsRunsAux rest 0
    else
      (c :: rest.takeWhile (fun x => ¬ isJsSpace x)) ::
      nonWsRunsAux rest (rest.takeWhile (fun x => ¬ isJsSpace x)).length

/-- Maximal runs of non-whitespace characters. -/
def nonWsRuns (s : JStr) : List JStr := nonWsRunsAux s 0

/-- JavaScript `split(/\s+/)`: the maximal non-whitespace runs, with an
extra empty piece at the front when the string starts with whitespace and
at the back when it ends with whitespace; the empty string yields one
empty piece. -/
def splitWs (s : JStr) : List JStr :=
  match s with
  | [] => [[]]
  | c :: _ =>
    (if isJsSpace c then [([] : JStr)] else []) ++ nonWsRuns s ++
    (match s.getLast? with
     | some d => if isJsSpace d then [([] : JStr)] else []
     | none => [])

/-- `Set.prototype.add` on an insertion-ordered list of keywords. -/
def addKeyword (ks : List JStr) (w : JStr) : List JStr :=
  if w ∈ ks then ks else ks ++ [w]

/-- `DocumentIndexer.extractKeywords`: title tokens (whitespace-split,
length > 1) and content tokens (regex scan, length > 2, first 50), all
lowercased and inserted into one insertion-ordered set. -/
def extractKeywords (title content : JStr) : List JStr :=
  let titleWords := (splitWs title).filter (fun w => 1 < w.length)
  let ks := titleWords.foldl (fun acc w => addKeyword acc (toLowerStr w)) []
  let contentWords := ((tokenize content).filter (fun w => 2 < w.length)).take 50
  contentWords.foldl (fun acc w => addKeyword acc (toLowerStr w)) ks

/-! ## Documents and search (`DocumentIndexer`, docIndexer.ts). -/

/-- A section as stored on a document by `parseMarkdown` (no line
numbers, an anchor, content already joined). -/
structure DocSection where
  level : Nat
  title : JStr
  content : JStr
  anchor : JStr
deriving DecidableEq, Repr

/-- The `DocumentIndex` record. -/
structure Doc where
  filePath : JStr
  absolutePath : JStr
  fileName : JStr
  title : JStr
  content : JStr
  sections : List DocSection
  keywords : List JStr
deriving DecidableEq, Repr

/-- The relevance score `searchDocuments` computes for one document,
written as the source's sequence of conditional increments. -/
def scoreDoc (lowerQuery : JStr) (doc : Doc) : Nat :=
  let score := 0
  let score := if containsSub (toLowerStr doc.title) lowerQuery
               then score + 10 else score
  let score := if containsSub (toLowerStr doc.fileName) lowerQuery
               then score + 5 else score
  let score := score + (doc.keywords.filter
                 (fun k => containsSub k lowerQuery)).length
  let score := if containsSub (toLowerStr doc.content) lowerQuery
               then score + 1 else score
  score

/-- The same score written as the spec of claim C1 describes it: a sum of
four independent contributions. -/
def scoreSpec (lowerQuery : JStr) (doc : Doc) : Nat :=
  (if containsSub (toLowerStr doc.title) lowerQuery then 10 else 0) +
  (if containsSub (toLowerStr doc.fileName) lowerQuery then 5 else 0) +
  (doc.keywords.filter (fun k => containsSub k lowerQuery)).length +
  (if containsSub (toLowerStr doc.content) lowerQuery then 1 else 0)

/-- `DocumentIndexer.searchDocuments`: score every indexed document, keep
the positive scores, sort by descending score, return the documents.
The index iterates in insertion order (a JavaScript `Map`), modelled as a
list; `Array.prototype.sort` with comparator `b.score - a.score` is a
stable descending sort, modelled by insertion sort on `b.2 ≤ a.2`. -/
def searchDocuments (query : JStr) (index : List Doc) : List Doc :=
  let lowerQuery := toLowerStr query
  let results := index.filterMap (fun doc =>
    let score := scoreDoc lowerQuery doc
    if 0 < score then some (doc, score) else none)
  (results.insertionSort (fun a b => b.2 ≤ a.2)).map (fun r => r.1)

instance instIsTotalScoreRel :
    IsTotal (Doc × Nat) (fun a b => b.2 ≤ a.2) :=
  ⟨fun a b => le_total b.2 a.2⟩

instance instIsTransScoreRel :
    IsTrans (Doc × Nat) (fun a b => b.2 ≤ a.2) :=
  ⟨fun _ _ _ hab hbc => le_trans hbc hab⟩

/-! ## Index building (`DocumentIndexer.buildIndex`, docIndexer.ts 41–104)
over an abstract filesystem.  A directory entry carries a `readable` flag
(`false` models `readdirSync` throwing) and a file carries `Option`
content (`none` models `readFileSync` throwing).  Traversal failure is an
`Except` whose error value is the partial index reached when the
exception was raised. -/

/-- An abstract filesystem entry. -/
inductive FSEntry where
  | file (name : JStr) (content : Option JStr)
  | dir (name : JStr) (readable : Bool) (entries : List FSEntry)

/-- Entry name. -/
def FSEntry.name : FSEntry → JStr
  | .file n _ => n
  | .dir n _ _ => n

/-- The index: relative path to document, in insertion order (a `Map`). -/
abbrev Index := List (JStr × Doc)

/-- `Map.prototype.set`: replace in place or append. -/
def indexSet (idx : Index) (k : JStr) (d : Doc) : Index :=
  if idx.any (fun p => p.1 = k) then
    idx.map (fun p => if p.1 = k then (k, d) else p)
  else idx ++ [(k, d)]

/-- `path.join` for the simple relative segments used here. -/
def pathJoin (a b : JStr) : JStr := a ++ '/' :: b

/-- `path.basename`. -/
def baseName (p : JStr) : JStr := ((splitOnChar '/' p).getLast?).getD []

/-- The document-title scan of `parseMarkdown`: the first heading whose
trimmed text is non-empty wins (an empty trimmed heading text is falsy,
so a later heading can still set the title). -/
def firstTitle : List JStr → JStr
  | [] => []
  | l :: rest =>
    match headingMatch l with
    | some (_, text) =>
      let t := jsTrim text
      if t.isEmpty then firstTitle rest else t
    | none => firstTitle rest

/-- `DocumentIndexer.parseMarkdown`.  Its line scan is letter-for-letter
the scan of `extractSections` without the line indices, so the sections
are derived from `secsLoop` by dropping the indices and attaching the
anchor. -/
def parseMarkdown (content : JStr) : JStr × List DocSection :=
  let lines := splitLines content
  let t := firstTitle lines
  let title := if t.isEmpty then str "Untitled" else t
  let secs := (secsLoop lines 0 none).map (fun s =>
    (⟨s.level, s.title, s.content, generateAnchor s.title⟩ : DocSection))
  (title, secs)

/-- Build the `DocumentIndex` record for one successfully read file. -/
def mkDoc (relPath absPath content : JStr) : Doc :=
  let parsed := parseMarkdown content
  { filePath := relPath, absolutePath := absPath,
    fileName := baseName absPath, title := parsed.1, content := content,
    sections := parsed.2, keywords := extractKeywords parsed.1 content }

/-- `DocumentIndexer.indexFile`: a failing read is caught and logged and
the file is skipped; a successful read inserts the document. -/
def indexFile (idx : Index) (absPath relPath : JStr) (content? : Option JStr) :
    Index :=
  match content? with
  | none => idx
  | some content => indexSet idx relPath (mkDoc relPath absPath content)

/-- The three directory names skipped by the walk. -/
def skipDirs : List JStr := [str "image", str "node_modules", str "dist"]

/-- `.md` suffix test (`entry.name.endsWith('.md')`). -/
def endsWithMd (n : JStr) : Bool := (str ".md").isSuffixOf n

mutual

/-- `DocumentIndexer.indexDirectory`: `readdirSync` on an unreadable
directory throws, aborting the traversal with the partial index. -/
def indexDirectory (dirAbs relBase : JStr) (readable : Bool)
    (entries : List FSEntry) (idx : Index) : Except Index Index :=
  if readable then indexEntries dirAbs relBase entries idx
  else .error idx

/-- The entry loop of `indexDirectory`. -/
def indexEntries (dirAbs relBase : JStr) (es : List FSEntry) (idx : Index) :
    Except Index Index :=
  match es with
  | [] => .ok idx
  | .dir name r sub :: rest =>
    if name ∈ skipDirs then indexEntries dirAbs relBase rest idx
    else
      match indexDirectory (pathJoin dirAbs name) (pathJoin relBase name)
          r sub idx with
      | .ok idx' => indexEntries dirAbs relBase rest idx'
      | .error idx' => .error idx'
  | .file name c? :: rest =>
    if endsWithMd name then
      indexEntries dirAbs relBase rest
        (indexFile idx (pathJoin dirAbs name) (pathJoin relBase name) c?)
    else indexEntries dirAbs relBase rest idx

end

/-- The four fixed top-level directory names of `buildIndex`. -/
def targetDirs : List JStr := [str "api", str "common", str "management",
  str "migration"]

/-- Look up a root entry by name (`fs.existsSync`). -/
def findEntry (name : JStr) (es : List FSEntry) : Option FSEntry :=
  es.find? (fun e => e.name = name)

/-- The target-directory loop of `buildIndex`: a name that is absent or
not a directory is skipped; a directory is walked, an exception during
the walk aborts the whole loop. -/
def buildDirs (basePath : JStr) (root : List FSEntry) :
    List JStr → Index → Except Index Index
  | [], idx => .ok idx
  | d :: rest, idx =>
    match findEntry d root with
    | some (.dir _ r sub) =>
      match indexDirectory (pathJoin basePath d) d r sub idx with
      | .ok idx' => buildDirs basePath root rest idx'
      | .error idx' => .error idx'
    | _ => buildDirs basePath root rest idx

/-- `DocumentIndexer.buildIndex`: clears the index, walks the four target
directories, then indexes a root `README.md` (reading a directory named
`README.md` throws inside `indexFile`, which catches it). -/
def buildIndex (basePath : JStr) (root : List FSEntry) (_prior : Index) :
    Except Index Index :=
  let idx : Index := []
  match buildDirs basePath root targetDirs idx with
  | .error idx' => .error idx'
  | .ok idx' =>
    match findEntry (str "README.md") root with
    | some (.file _ c?) =>
      .ok (indexFile idx' (pathJoin basePath (str "README.md"))
        (str "README.md") c?)
    | _ => .ok idx'

/-- The caller (`initializeIndexer` in index.ts): catches any exception
from `buildIndex`, logs it, and continues with whatever index resulted. -/
def initializeIndexer (basePath : JStr) (root : List FSEntry)
    (prior : Index) : Index :=
  match buildIndex basePath root prior with
  | .ok idx => idx
  | .error idx => idx

/-! ## Tables (`MarkdownParser.extractTables` / `parseTable`,
markdownParser.ts lines 129–217). -/

/-- One table cell. -/
structure TableCell where
  content : JStr
  isHeader : Bool
deriving DecidableEq, Repr

/-- One table row. -/
structure TableRow where
  cells : List TableCell
deriving DecidableEq, Repr

/-- One parsed table. -/
structure Table where
  headers : List JStr
  rows : List TableRow
  raw : JStr
deriving DecidableEq, Repr

/-- Split a table line on `|`, trim each piece, drop the empty pieces. -/
def cellSplit (line : JStr) : List JStr :=
  ((splitOnChar '|' line).map jsTrim).filter (fun c => 0 < c.length)

/-- Parse one data line into a row of non-header cells. -/
def rowOfLine (line : JStr) : TableRow :=
  ⟨(cellSplit line).map (fun c => (⟨c, false⟩ : TableCell))⟩

/-- The line list `parseTable` works on: trim the block, split into
lines, drop blank lines. -/
def cleanTableLines (tableText : JStr) : List JStr :=
  (splitLines (jsTrim tableText)).filter (fun l => ¬ (jsTrim l).isEmpty)

/-- `MarkdownParser.parseTable`: fewer than two lines is no table; the
first line gives the headers, the second (separator) line is skipped, the
remaining lines give the rows, skipping rows with no surviving cells. -/
def parseTable (tableText : JStr) : Option Table :=
  let lines := cleanTableLines tableText
  if lines.length < 2 then none
  else
    let headers := cellSplit (lines.head?.getD [])
    let rows := (lines.drop 2).filterMap (fun rowLine =>
      let r := rowOfLine rowLine
      if 0 < r.cells.length then some r else none)
    some ⟨headers, rows, tableText⟩

/-- The line-grouping loop of `extractTables`, with the `inTable` flag
and the current candidate block. -/
def tablesLoop : List JStr → Bool → List JStr → List Table → List Table
  | [], inTable, currentTable, acc =>
    if inTable ∧ 2 ≤ currentTable.length then
      match parseTable (joinLines currentTable) with
      | some t => acc ++ [t]
      | none => acc
    else acc
  | l :: rest, inTable, currentTable, acc =>
    let t := jsTrim l
    if t.head? = some '|' ∧ t.getLast? = some '|' then
      tablesLoop rest true ((if inTable then currentTable else []) ++ [l]) acc
    else if t.head? = some '|' then
      tablesLoop rest inTable
        (if inTable then currentTable ++ [l] else currentTable) acc
    else if inTable ∧ 2 ≤ currentTable.length then
      tablesLoop rest false []
        (match parseTable (joinLines currentTable) with
         | some tb => acc ++ [tb]
         | none => acc)
    else tablesLoop rest inTable currentTable acc

/-- `MarkdownParser.extractTables`. -/
def extractTables (content : JStr) : List Table :=
  tablesLoop (splitLines content) false [] []

/-! ## API endpoint extraction (`MarkdownParser.extractAPIEndpoints`,
markdownParser.ts lines 370–408). -/

/-- One extracted endpoint triple. -/
structure Endpoint where
  api : JStr
  method : JStr
  endpoint : JStr
deriving DecidableEq, Repr

/-- Header predicate for the API column. -/
def apiHeaderPred (h : JStr) : Bool :=
  containsSub (toLowerStr h) (str "api") ∨ containsSub (toLowerStr h) (str "기능")

/-- Header predicate for the method column. -/
def methodHeaderPred (h : JStr) : Bool :=
  containsSub (toLowerStr h) (str "method")

/-- Header predicate for the endpoint column. -/
def endpointHeaderPred (h : JStr) : Bool :=
  containsSub (toLowerStr h) (str "endpoint") ∨
  containsSub (toLowerStr h) (str "url")

/-- `row.cells[i]?.content || ''`. -/
def cellAt (r : TableRow) (i : Nat) : JStr :=
  match r.cells.get? i with
  | some c => c.content
  | none => []

/-- The per-table body of `extractAPIEndpoints`: find the three column
indices; when all exist, emit a triple for each row whose three cells are
all truthy (non-empty). -/
def endpointsOfTable (t : Table) : List Endpoint :=
  match t.headers.findIdx? apiHeaderPred, t.headers.findIdx? methodHeaderPred,
      t.headers.findIdx? endpointHeaderPred with
  | some ai, some mi, some ei =>
    t.rows.foldl (fun acc row =>
      let api := cellAt row ai
      let method := cellAt row mi
      let endpoint := cellAt row ei
      if ¬ api = [] ∧ ¬ method = [] ∧ ¬ endpoint = [] then
        acc ++ [(⟨api, method, endpoint⟩ : Endpoint)]
      else acc) []
  | _, _, _ => []

/-- `MarkdownParser.extractAPIEndpoints`. -/
def extractAPIEndpoints (content : JStr) : List Endpoint :=
  ((extractTables content).map endpointsOfTable).flatten

/-! ## Links (`MarkdownParser.extractLinks`, markdownParser.ts 240–274).

The inline pattern is `\[([^\]]+)\]\(([^)]+)(?:\s+"([^"]+)")?\)` with the
`g` flag; the reference pattern is `\[([^\]]+)\]\[([^\]]+)\]`, and for
each reference match a definition `\[ref\]:\s+([^\s]+)` is looked up from
the start of the document (the reference name is spliced verbatim into
that regex; the model treats it literally, which is exact for names
without regex metacharacters).  The scanners below implement the regex
engine's leftmost-match/greedy/backtracking discipline explicitly; in
particular `tryUrlTitle` implements the backtracking of the greedy
`([^)]+)` group against the optional title group. -/

/-- One extracted link. -/
structure Link where
  text : JStr
  url : JStr
  title : Option JStr
deriving DecidableEq, Repr

/-- Match `\s+"([^"]+)"` followed by the final `\)` at the start of `s`;
returns the title and the remainder after the `)`. -/
def matchTitleParen (s : JStr) : Option (JStr × JStr) :=
  if (s.takeWhile isJsSpace).isEmpty then none
  else
    match s.drop (s.takeWhile isJsSpace).length with
    | '"' :: rest =>
      if (rest.takeWhile (fun c => ¬ c = '"')).isEmpty then none
      else
        match rest.drop (rest.takeWhile (fun c => ¬ c = '"')).length with
        | '"' :: ')' :: rest2 =>
          some (rest.takeWhile (fun c => ¬ c = '"'), rest2)
        | _ => none
    | _ => none

/-- Backtracking of the greedy `([^)]+)` group: try the group at length
`k`, first against the optional title group then against a bare `\)`,
shrinking on failure.  Called with `k` the length of the maximal run of
non-`)` characters. -/
def tryUrlTitle (s : JStr) : Nat → Option (JStr × Option JStr × JStr)
  | 0 => none
  | (k+1) =>
    match matchTitleParen (s.drop (k+1)) with
    | some (t, rest2) => some (s.take (k+1), some t, rest2)
    | none =>
      match s.drop (k+1) with
      | ')' :: rest2 => some (s.take (k+1), none, rest2)
      | _ => tryUrlTitle s k

/-- Try the inline link pattern at the current position; on success
return the link and the remainder after the match (always a proper
suffix of the tail of the input). -/
def tryInline (s : JStr) : Option (Link × JStr) :=
  match s with
  | '[' :: rest =>
    if (rest.takeWhile (fun c => ¬ c = ']')).isEmpty then none
    else
      match rest.drop (rest.takeWhile (fun c => ¬ c = ']')).length with
      | ']' :: '(' :: rest2 =>
        match tryUrlTitle rest2 (rest2.takeWhile (fun c => ¬ c = ')')).length with
        | some (url, title, rest3) =>
          some (⟨rest.takeWhile (fun c => ¬ c = ']'), url, title⟩, rest3)
        | none => none
      | _ => none
  | _ => none

/-- The `g`-flag scan for inline links, with a skip counter: after a
match whose remainder is `r`, the counter skips the matched characters so
the scan resumes exactly at `r`; where no match starts the scan advances
one character. -/
def inlineScanAux : JStr → Nat → List Link
  | [], _ => []
  | _ :: rest, k+1 => inlineScanAux rest k
  | c :: rest, 0 =>
    match tryInline (c :: rest) with
    | some (l, r) => l :: inlineScanAux rest (rest.length - r.length)
    | none => inlineScanAux rest 0

/-- The `g`-flag scan for inline links. -/
def inlineScan (s : JStr) : List Link := inlineScanAux s 0

/-- Try the reference link pattern `\[([^\]]+)\]\[([^\]]+)\]` at the
current position; returns text, reference name and the remainder. -/
def tryRef (s : JStr) : Option ((JStr × JStr) × JStr) :=
  match s with
  | '[' :: rest =>
    if (rest.takeWhile (fun c => ¬ c = ']')).isEmpty then none
    else
      match rest.drop (rest.takeWhile (fun c => ¬ c = ']')).length with
      | ']' :: '[' :: rest2 =>
        if (rest2.takeWhile (fun c => ¬ c = ']')).isEmpty then none
        else
          match rest2.drop (rest2.takeWhile (fun c => ¬ c = ']')).length with
          | ']' :: rest3 =>
            some ((rest.takeWhile (fun c => ¬ c = ']'),
              rest2.takeWhile (fun c => ¬ c = ']')), rest3)
          | _ => none
      | _ => none
  | _ => none

/-- Try the definition pattern `\[ref\]:\s+([^\s]+)` at the current
position. -/
def tryRefDefAt (ref : JStr) (s : JStr) : Option JStr :=
  if ('[' :: (ref ++ [']', ':'])).isPrefixOf s then
    let after := s.drop (ref.length + 3)
    let ws := after.takeWhile isJsSpace
    if ws.isEmpty then none
    else
      let url := (after.drop ws.length).takeWhile (fun c => ¬ isJsSpace c)
      if url.isEmpty then none else some url
  else none

/-- First match of the definition pattern anywhere in the document
(`refDefinitionPattern.exec(content)`). -/
def findRefDef (ref : JStr) : JStr → Option JStr
  | [] => none
  | c :: rest =>
    match tryRefDefAt ref (c :: rest) with
    | some u => some u
    | none => findRefDef ref rest

/-- The `g`-flag scan for reference links, with a skip counter as in
`inlineScanAux`: each match is resolved against the whole document;
unresolved references are dropped (but the scan still continues after
the match). -/
def refScanAux (content : JStr) : JStr → Nat → List Link
  | [], _ => []
  | _ :: rest, k+1 => refScanAux content rest k
  | c :: rest, 0 =>
    match tryRef (c :: rest) with
    | some ((text, ref), r) =>
      (match findRefDef ref content with
       | some url => [(⟨text, url, none⟩ : Link)]
       | none => []) ++ refScanAux content rest (rest.length - r.length)
    | none => refScanAux content rest 0

/-- The `g`-flag scan for reference links. -/
def refScan (content s : JStr) : List Link := refScanAux content s 0

/-- `MarkdownParser.extractLinks`: the inline matches followed by the
resolved reference matches. -/
def extractLinks (content : JStr) : List Link :=
  inlineScan content ++ refScan content content

/-! ## Concrete example inputs used by counterexamples and witnesses -/

/-- A sample indexed document. -/
def exDoc : Doc :=
  { filePath := str "api/a.md", absolutePath := str "/docs/api/a.md",
    fileName := str "a.md", title := str "A", content := str "# A\nbody",
    sections := [], keywords := [str "abc"] }

/-- A sample filesystem on which the traversal raises midway: the `api`
directory is readable and holds one good file, the `common` directory
exists but `readdirSync` on it throws. -/
def exRootFail : List FSEntry :=
  [.dir (str "api") true [.file (str "a.md") (some (str "# A\nbody"))],
   .dir (str "common") false []]

/-- A qualifying API table with one fully populated row. -/
def exTable : Table :=
  ⟨[str "API", str "Method", str "Endpoint"],
   [⟨[⟨str "a", false⟩, ⟨str "b", false⟩, ⟨str "c", false⟩]⟩],
   str ""⟩

/-! # Theorems -/

/-! ## Generic helper lemmas -/

/-- Characters produced by `replaceRunsAux` are the replacement character
or characters of the input that do not match the class. -/
theorem replaceRunsAux_mem {p : Char → Bool} {r : Char} :
    ∀ {s : JStr} {prev : Bool} {c : Char}, c ∈ replaceRunsAux p r s prev →
      c = r ∨ (c ∈ s ∧ p c = false) := by
  intro s
  induction s with
  | nil => intro prev c h; simp [replaceRunsAux] at h
  | cons a t ih =>
    intro prev c h
    simp only [replaceRunsAux] at h
    cases hp : p a with
    | true =>
      rw [hp] at h
      simp only [if_true, List.mem_append] at h
      rcases h with h | h
      · left
        cases prev with
        | true => simp at h
        | false => simpa using h
      · rcases ih h with h' | ⟨h1, h2⟩
        · exact Or.inl h'
        · exact Or.inr ⟨List.mem_cons_of_mem a h1, h2⟩
    | false =>
      rw [hp] at h
      simp only [Bool.false_eq_true, if_false, List.mem_cons] at h
      rcases h with h | h
      · subst h
        exact Or.inr ⟨List.mem_cons_self c t, hp⟩
      · rcases ih h with h' | ⟨h1, h2⟩
        · exact Or.inl h'
        · exact Or.inr ⟨List.mem_cons_of_mem a h1, h2⟩

/-- `dropWhile` is the identity when no element satisfies the predicate. -/
theorem dropWhile_eq_self_of_none {p : Char → Bool} {l : JStr}
    (h : ∀ c ∈ l, p c = false) : l.dropWhile p = l := by
  cases l with
  | nil => rfl
  | cons a t =>
    have := h a (List.mem_cons_self a t)
    simp [List.dropWhile_cons, this]

/-- `jsTrim` is the identity on strings with no whitespace characters. -/
theorem jsTrim_eq_self {l : JStr} (h : ∀ c ∈ l, isJsSpace c = false) :
    jsTrim l = l := by
  unfold jsTrim
  rw [dropWhile_eq_self_of_none h,
    dropWhile_eq_self_of_none (fun c hc => h c (List.mem_reverse.mp hc)),
    List.reverse_reverse]

/-! ## C4: generateAnchor -/

/-- After the whitespace-collapsing pass no whitespace remains. -/
theorem replaceRuns_ws_no_space (x : JStr) :
    ∀ c ∈ replaceRuns isJsSpace '-' x, isJsSpace c = false := by
  intro c hc
  rcases replaceRunsAux_mem hc with h | ⟨_, h⟩
  · subst h; decide
  · exact h

/-- The hyphen-collapsing pass introduces no whitespace. -/
theorem replaceRuns_hyphen_no_space {y : JStr}
    (hy : ∀ c ∈ y, isJsSpace c = false) :
    ∀ c ∈ replaceRuns (fun c => c = '-') '-' y, isJsSpace c = false := by
  intro c hc
  rcases replaceRunsAux_mem hc with h | ⟨h1, _⟩
  · subst h; decide
  · exact hy c h1

/-- C4 (amended): the anchor is the title lowercased, with characters
outside `[\w\s-]` removed, whitespace runs replaced by single hyphens and
hyphen runs collapsed to single hyphens; the final `trim()` only removes
whitespace, of which none remains, so leading and trailing hyphens are
kept. -/
theorem generateAnchor_spec (title : JStr) :
    generateAnchor title =
      replaceRuns (fun c => c = '-') '-' (replaceRuns isJsSpace '-'
        ((toLowerStr title).filter isAnchorKeep)) := by
  unfold generateAnchor
  exact jsTrim_eq_self
    (replaceRuns_hyphen_no_space (replaceRuns_ws_no_space _))

/-- C4 (counterexample): on the title `" a--b"` the code yields `"-a-b"`
(leading hyphen kept, hyphen run collapsed) while the claimed pipeline
(whitespace runs to hyphens, then leading/trailing hyphens trimmed)
yields `"a--b"`. -/
theorem generateAnchor_counterexample :
    generateAnchor (str " a--b") = str "-a-b"
    ∧ claimAnchor (str " a--b") = str "a--b"
    ∧ generateAnchor (str " a--b") ≠ claimAnchor (str " a--b") := by
  refine ⟨by decide, by decide, by decide⟩

/-! ## C1, C2: searchDocuments -/

/-- Every string contains the empty string. -/
theorem containsSub_nil (s : JStr) : containsSub s [] = true := by
  induction s with
  | nil => rfl
  | cons c t ih => simp [containsSub, ih, List.isPrefixOf]

/-- With the empty query every document scores positively (the three
containment checks all succeed, giving at least 10 + 5 + 1). -/
theorem scoreDoc_empty_pos (d : Doc) : 0 < scoreDoc [] d := by
  simp [scoreDoc, containsSub_nil]

/-- `searchDocuments` unfolded. -/
theorem searchDocuments_eq (q : JStr) (index : List Doc) :
    searchDocuments q index =
      ((index.filterMap (fun doc =>
        if 0 < scoreDoc (toLowerStr q) doc
        then some (doc, scoreDoc (toLowerStr q) doc) else none)).insertionSort
          (fun a b => b.2 ≤ a.2)).map (fun r => r.1) := rfl

/-- The sequential conditional increments of the source compute the sum
of the four contributions described by the spec. -/
theorem scoreDoc_eq_scoreSpec (q : JStr) (d : Doc) :
    scoreDoc q d = scoreSpec q d := by
  unfold scoreDoc scoreSpec
  dsimp only
  split_ifs <;> omega

/-- Every scored pair in the search results carries the score of its
document. -/
theorem search_results_snd {q : JStr} {l : List Doc} {p : Doc × Nat}
    (hp : p ∈ l.filterMap (fun doc =>
      if 0 < scoreDoc q doc then some (doc, scoreDoc q doc) else none)) :
    p.2 = scoreDoc q p.1 := by
  rcases List.mem_filterMap.mp hp with ⟨d, _, hd⟩
  split at hd
  · cases hd
    rfl
  · cases hd

/-- Dropping the scores from the results gives exactly the documents with
positive score, in index order. -/
theorem search_results_map_fst (q : JStr) (l : List Doc) :
    (l.filterMap (fun doc =>
      if 0 < scoreDoc q doc then some (doc, scoreDoc q doc) else none)).map
        Prod.fst
      = l.filter (fun d => 0 < scoreDoc q d) := by
  induction l with
  | nil => rfl
  | cons d t ih =>
    simp only [List.filterMap_cons, List.filter_cons]
    by_cases h : 0 < scoreDoc q d
    · rw [if_pos h]
      simp [h, ih]
    · rw [if_neg h]
      simp [h, ih]

/-- C1: each document's score is the stated sum of the four
contributions; the result contains exactly the indexed documents of
positive score; and the result is ordered by non-increasing score. -/
theorem search_scoring (index : List Doc) (query : JStr) :
    (∀ doc, scoreDoc (toLowerStr query) doc = scoreSpec (toLowerStr query) doc)
    ∧ (searchDocuments query index).Perm
        (index.filter (fun d => 0 < scoreDoc (toLowerStr query) d))
    ∧ (searchDocuments query index).Sorted
        (fun a b =>
          scoreDoc (toLowerStr query) b ≤ scoreDoc (toLowerStr query) a) := by
  refine ⟨fun d => scoreDoc_eq_scoreSpec _ d, ?_, ?_⟩
  · rw [searchDocuments_eq]
    have h1 : (fun r : Doc × Nat => r.1) = Prod.fst := rfl
    rw [h1]
    refine (List.Perm.map _ (List.perm_insertionSort _ _)).trans ?_
    rw [search_results_map_fst]
  · rw [searchDocuments_eq]
    have hs := List.sorted_insertionSort (fun a b : Doc × Nat => b.2 ≤ a.2)
      (index.filterMap (fun doc =>
        if 0 < scoreDoc (toLowerStr query) doc
        then some (doc, scoreDoc (toLowerStr query) doc) else none))
    have hmem : ∀ p ∈ (index.filterMap (fun doc =>
        if 0 < scoreDoc (toLowerStr query) doc
        then some (doc, scoreDoc (toLowerStr query) doc) else none)).insertionSort
          (fun a b => b.2 ≤ a.2),
        p.2 = scoreDoc (toLowerStr query) p.1 := by
      intro p hp
      exact search_results_snd
        ((List.perm_insertionSort _ _).mem_iff.mp hp)
    refine List.pairwise_map.mpr ?_
    refine hs.imp_of_mem ?_
    intro a b ha hb hab
    rw [← hmem a ha, ← hmem b hb]
    exact hab

/-- C2 (counterexample): on a one-document index the empty query returns
that document (its score is 10 + 5 + 1 + keyword matches > 0, because
every string contains the empty string), not the empty sequence. -/
theorem search_empty_query_counterexample :
    searchDocuments (str "") [exDoc] = [exDoc]
    ∧ searchDocuments (str "") [exDoc] ≠ [] := by
  refine ⟨by decide, by decide⟩

/-- C2 (amended): the empty query returns all indexed documents (as a
permutation of the index), never the empty sequence on a non-empty
index. -/
theorem search_empty_query_returns_all (index : List Doc) :
    (searchDocuments (str "") index).Perm index := by
  rw [searchDocuments_eq]
  have hfm : index.filterMap (fun doc =>
      if 0 < scoreDoc (toLowerStr (str "")) doc
      then some (doc, scoreDoc (toLowerStr (str "")) doc) else none)
      = index.map (fun doc => (doc, scoreDoc (toLowerStr (str "")) doc)) := by
    induction index with
    | nil => rfl
    | cons d t ih =>
      have hd : 0 < scoreDoc (toLowerStr (str "")) d := scoreDoc_empty_pos d
      have hsome : (if 0 < scoreDoc (toLowerStr (str "")) d
          then some (d, scoreDoc (toLowerStr (str "")) d) else none)
          = some (d, scoreDoc (toLowerStr (str "")) d) := if_pos hd
      simp only [List.filterMap_cons, hsome, List.map_cons, ih]
  rw [hfm]
  refine (List.Perm.map _ (List.perm_insertionSort _ _)).trans ?_
  have hcomp : ((fun r : Doc × Nat => r.1) ∘ fun doc =>
      (doc, scoreDoc (toLowerStr (str "")) doc)) = fun doc : Doc => doc := rfl
  rw [List.map_map, hcomp, List.map_id']

/-! ## C3: buildIndex failure behaviour -/

/-- C3 (counterexample): on `exRootFail` with an empty prior index (a
first build), the traversal raises (`buildIndex` returns an exception)
and the index the caller is left with is *not* empty — it holds the file
indexed before the failure — contradicting "index left in its prior
state, empty if this was the first build". -/
theorem buildIndex_counterexample :
    Except.isOk (buildIndex (str "/docs") exRootFail ([] : Index)) = false
    ∧ initializeIndexer (str "/docs") exRootFail ([] : Index) ≠ ([] : Index) := by
  constructor
  · simp +decide [buildIndex, buildDirs, targetDirs, exRootFail, findEntry,
      FSEntry.name, indexDirectory, indexEntries, skipDirs, endsWithMd,
      indexFile, indexSet, Except.isOk]
  · simp +decide [initializeIndexer, buildIndex, buildDirs, targetDirs,
      exRootFail, findEntry, FSEntry.name, indexDirectory, indexEntries,
      skipDirs, endsWithMd, indexFile, indexSet]

/-- C3 (amended): `buildIndex` clears the index on entry, so its outcome
never depends on the prior index; an exception raised during traversal
carries the partial index reached and is caught by the caller
(`initializeIndexer`), which keeps exactly that partial index — no
exception propagates past it. -/
theorem buildIndex_failure_behavior (basePath : JStr) (root : List FSEntry)
    (prior prior' : Index) :
    buildIndex basePath root prior = buildIndex basePath root prior'
    ∧ initializeIndexer basePath root prior =
        (match buildIndex basePath root prior with
         | .ok idx => idx
         | .error idx => idx) :=
  ⟨rfl, rfl⟩

/-! ## C8: extractAPIEndpoints -/

/-- The accumulating row loop of `endpointsOfTable` is filter-then-map. -/
theorem endpointsOfTable_foldl (ai mi ei : Nat) (rows : List TableRow) :
    ∀ acc : List Endpoint,
      rows.foldl (fun acc row =>
        if ¬ cellAt row ai = [] ∧ ¬ cellAt row mi = []
            ∧ ¬ cellAt row ei = [] then
          acc ++ [(⟨cellAt row ai, cellAt row mi, cellAt row ei⟩ : Endpoint)]
        else acc) acc
      = acc ++ (rows.filter (fun row =>
          ¬ cellAt row ai = [] ∧ ¬ cellAt row mi = []
          ∧ ¬ cellAt row ei = [])).map (fun row =>
            (⟨cellAt row ai, cellAt row mi, cellAt row ei⟩ : Endpoint)) := by
  induction rows with
  | nil => intro acc; simp
  | cons r t ih =>
    intro acc
    rw [List.foldl_cons, List.filter_cons]
    by_cases h : ¬ cellAt r ai = [] ∧ ¬ cellAt r mi = [] ∧ ¬ cellAt r ei = []
    · rw [if_pos h, ih, if_pos (decide_eq_true h), List.map_cons]
      simp
    · rw [if_neg h, ih, if_neg (by simpa using h)]

/-- C8: for a table whose headers match the api/method/endpoint
predicates at indices `ai`, `mi`, `ei`, the extractor emits one triple
per row whose three relevant cells are non-empty — the rows with an
empty or missing relevant cell are exactly the ones excluded; and on the
concrete two-row table the fully populated row yields the single triple
while the row with a missing cell is dropped. -/
theorem extractAPIEndpoints_spec :
    (∀ (t : Table) (ai mi ei : Nat),
      t.headers.findIdx? apiHeaderPred = some ai →
      t.headers.findIdx? methodHeaderPred = some mi →
      t.headers.findIdx? endpointHeaderPred = some ei →
      endpointsOfTable t = (t.rows.filter (fun row =>
          ¬ cellAt row ai = [] ∧ ¬ cellAt row mi = []
          ∧ ¬ cellAt row ei = [])).map (fun row =>
            (⟨cellAt row ai, cellAt row mi, cellAt row ei⟩ : Endpoint)))
    ∧ extractAPIEndpoints
        (str "| API | Method | Endpoint |\n| --- | --- | --- |\n| a | b | c |\n| d | e |")
        = [⟨str "a", str "b", str "c"⟩] := by
  constructor
  · intro t ai mi ei ha hm he
    unfold endpointsOfTable
    rw [ha, hm, he]
    exact (endpointsOfTable_foldl ai mi ei t.rows []).trans (by simp)
  · decide

/-- C8 witness: the general row characterization applied to `exTable`. -/
theorem extractAPIEndpoints_spec_witness :
    endpointsOfTable exTable = [⟨str "a", str "b", str "c"⟩] := by
  have h := extractAPIEndpoints_spec.1 exTable 0 1 2
    (by decide) (by decide) (by decide)
  rw [h]
  decide

/-! ## C7: parseTable -/

/-- `splitOnChar` never returns the empty list. -/
theorem splitOnChar_ne_nil (sep : Char) (l : JStr) : splitOnChar sep l ≠ [] := by
  cases l with
  | nil => simp [splitOnChar]
  | cons c rest =>
    unfold splitOnChar
    split
    · simp
    · split <;> simp

/-- Splitting a string that does not contain the separator yields one
piece. -/
theorem splitOnChar_no_sep {sep : Char} {l : JStr} (h : sep ∉ l) :
    splitOnChar sep l = [l] := by
  induction l with
  | nil => rfl
  | cons c rest ih =>
    have hc : ¬ c = sep := fun e => h (e ▸ List.mem_cons_self c rest)
    have hr : sep ∉ rest := fun hm => h (List.mem_cons_of_mem c hm)
    simp [splitOnChar, hc, ih hr]

/-- Splitting across one separator occurrence. -/
theorem splitOnChar_append_sep {sep : Char} {xs : JStr} (ys : JStr)
    (h : sep ∉ xs) :
    splitOnChar sep (xs ++ sep :: ys) = xs :: splitOnChar sep ys := by
  induction xs with
  | nil => simp [splitOnChar]
  | cons c rest ih =>
    have hc : ¬ c = sep := fun e => h (e ▸ List.mem_cons_self c rest)
    have hr : sep ∉ rest := fun hm => h (List.mem_cons_of_mem c hm)
    simp [splitOnChar, hc, ih hr]

/-- A separator-free prefix merges into the first piece of a split. -/
theorem splitOnChar_append_left {sep : Char} {w : JStr} (l : JStr)
    (hw : sep ∉ w) :
    splitOnChar sep (w ++ l)
      = (w ++ (splitOnChar sep l).headD []) :: (splitOnChar sep l).tail := by
  induction w with
  | nil =>
    cases hsp : splitOnChar sep l with
    | nil => exact absurd hsp (splitOnChar_ne_nil sep l)
    | cons p ps => simp [hsp]
  | cons c rest ih =>
    have hc : ¬ c = sep := fun e => hw (e ▸ List.mem_cons_self c rest)
    have hr : sep ∉ rest := fun hm => hw (List.mem_cons_of_mem c hm)
    simp [splitOnChar, hc, ih hr]

/-- `dropWhile` distributes over an append whose left part survives. -/
theorem dropWhile_append_ne {p : Char → Bool} {xs : JStr} (ys : JStr)
    (h : xs.dropWhile p ≠ []) :
    (xs ++ ys).dropWhile p = xs.dropWhile p ++ ys := by
  rw [List.dropWhile_append, if_neg]
  intro he
  exact h (List.isEmpty_iff.mp he)

/-- `dropWhile` absorbs a fully matching prefix. -/
theorem dropWhile_append_all {p : Char → Bool} {xs : JStr} (ys : JStr)
    (h : ∀ c ∈ xs, p c = true) :
    (xs ++ ys).dropWhile p = ys.dropWhile p := by
  rw [List.dropWhile_append, if_pos]
  rw [List.isEmpty_iff, List.dropWhile_eq_nil_iff]
  exact h

/-- `dropWhile` is idempotent. -/
theorem dropWhile_idem (p : Char → Bool) (l : JStr) :
    (l.dropWhile p).dropWhile p = l.dropWhile p := by
  induction l with
  | nil => rfl
  | cons a t ih =>
    by_cases hp : p a
    · simp [List.dropWhile_cons, hp, ih]
    · simp [List.dropWhile_cons, hp]

/-- The head of a `dropWhile` result fails the predicate. -/
theorem head_dropWhile_false {α : Type} {p : α → Bool} {l : List α} {c : α}
    {rest : List α} (h : l.dropWhile p = c :: rest) : p c = false := by
  induction l with
  | nil => cases h
  | cons a t ih =>
    rw [List.dropWhile_cons] at h
    by_cases hp : p a
    · rw [if_pos hp] at h
      exact ih h
    · rw [if_neg hp] at h
      cases h
      simpa using hp

/-- Members of a trimmed string are members of the string. -/
theorem mem_jsTrim_subset {c : Char} {l : JStr} (h : c ∈ jsTrim l) :
    c ∈ l := by
  unfold jsTrim at h
  rw [List.mem_reverse] at h
  have h2 := (List.dropWhile_sublist (l := (l.dropWhile isJsSpace).reverse)
    isJsSpace).subset h
  rw [List.mem_reverse] at h2
  exact (List.dropWhile_sublist isJsSpace).subset h2

/-- A string trims to empty exactly when it is all whitespace. -/
theorem jsTrim_eq_nil_iff {l : JStr} :
    jsTrim l = [] ↔ ∀ c ∈ l, isJsSpace c = true := by
  unfold jsTrim
  constructor
  · intro h c hc
    rw [List.reverse_eq_nil_iff, List.dropWhile_eq_nil_iff] at h
    have h' : ∀ x ∈ l.dropWhile isJsSpace, isJsSpace x = true := by
      intro x hx
      exact h x (List.mem_reverse.mpr hx)
    rcases (List.mem_append.mp
        ((List.takeWhile_append_dropWhile isJsSpace l) ▸ hc)) with hc' | hc'
    · exact List.mem_takeWhile_imp hc'
    · exact h' c hc'
  · intro h
    rw [List.dropWhile_eq_nil_iff.mpr h]
    rfl

/-- Whitespace characters are not pipes. -/
theorem isJsSpace_ne_pipe {c : Char} (h : isJsSpace c = true) : ¬ c = '|' := by
  intro e
  subst e
  simp [isJsSpace] at h

/-- Whitespace characters are not newlines?  They can be — but a
whitespace prefix taken from a newline-free string is newline-free; this
lemma is about pipes only and the newline-freeness is tracked by
membership. -/
theorem jsTrim_ws_left {w x : JStr} (h : ∀ c ∈ w, isJsSpace c = true) :
    jsTrim (w ++ x) = jsTrim x := by
  unfold jsTrim
  rw [dropWhile_append_all x h]

/-- Dropping leading whitespace does not change the split-trim-filter
cell decomposition of a table line. -/
theorem cellSplit_dropWhile_ws (h : JStr) :
    cellSplit (h.dropWhile isJsSpace) = cellSplit h := by
  conv_rhs => rw [← List.takeWhile_append_dropWhile isJsSpace h]
  have hw : ∀ c ∈ h.takeWhile isJsSpace, isJsSpace c = true :=
    fun c hc => List.mem_takeWhile_imp hc
  have hnp : '|' ∉ h.takeWhile isJsSpace :=
    fun hm => isJsSpace_ne_pipe (hw '|' hm) rfl
  unfold cellSplit
  rw [splitOnChar_append_left (h.dropWhile isJsSpace) hnp]
  cases hsp : splitOnChar '|' (h.dropWhile isJsSpace) with
  | nil => exact absurd hsp (splitOnChar_ne_nil _ _)
  | cons p ps =>
    simp only [hsp, List.headD_cons, List.tail_cons, List.map_cons]
    rw [jsTrim_ws_left hw]

/-- `cleanTableLines` on a two-line block with non-blank lines. -/
theorem cleanTableLines_pair {h s : JStr} (hn : '\n' ∉ h) (hsn : '\n' ∉ s)
    (hh : ∃ c ∈ h, isJsSpace c = false) (hs : ∃ c ∈ s, isJsSpace c = false) :
    cleanTableLines (h ++ '\n' :: s)
      = [h.dropWhile isJsSpace, (s.reverse.dropWhile isJsSpace).reverse] := by
  rcases hh with ⟨ch, hch, hch2⟩
  rcases hs with ⟨cs, hcs, hcs2⟩
  have hdh : h.dropWhile isJsSpace ≠ [] := by
    rw [Ne, List.dropWhile_eq_nil_iff]
    intro hall
    rw [hall ch hch] at hch2
    cases hch2
  have hds : s.reverse.dropWhile isJsSpace ≠ [] := by
    rw [Ne, List.dropWhile_eq_nil_iff]
    intro hall
    rw [hall cs (List.mem_reverse.mpr hcs)] at hcs2
    cases hcs2
  have htrim : jsTrim (h ++ '\n' :: s)
      = h.dropWhile isJsSpace ++ '\n' :: (s.reverse.dropWhile isJsSpace).reverse := by
    unfold jsTrim
    rw [dropWhile_append_ne ('\n' :: s) hdh]
    rw [List.reverse_append, List.reverse_cons, List.append_assoc]
    rw [dropWhile_append_ne _ hds]
    simp [List.reverse_append]
  unfold cleanTableLines splitLines
  rw [htrim]
  have hnh' : '\n' ∉ h.dropWhile isJsSpace :=
    fun hm => hn ((List.dropWhile_sublist isJsSpace).subset hm)
  have hns' : '\n' ∉ (s.reverse.dropWhile isJsSpace).reverse := by
    intro hm
    rw [List.mem_reverse] at hm
    exact hsn (List.mem_reverse.mp
      ((List.dropWhile_sublist isJsSpace).subset hm))
  rw [splitOnChar_append_sep _ hnh', splitOnChar_no_sep hns']
  have hq1 : (jsTrim (h.dropWhile isJsSpace)).isEmpty = false := by
    rcases List.exists_cons_of_ne_nil hdh with ⟨c0, r0, hc0⟩
    cases he : (jsTrim (h.dropWhile isJsSpace)).isEmpty with
    | false => rfl
    | true =>
      exfalso
      have hnil := List.isEmpty_iff.mp he
      rw [jsTrim_eq_nil_iff] at hnil
      have hcs := hnil c0 (hc0 ▸ List.mem_cons_self c0 r0)
      rw [head_dropWhile_false hc0] at hcs
      cases hcs
  have hq2 : (jsTrim ((s.reverse.dropWhile isJsSpace).reverse)).isEmpty = false := by
    rcases List.exists_cons_of_ne_nil hds with ⟨c0, r0, hc0⟩
    cases he : (jsTrim ((s.reverse.dropWhile isJsSpace).reverse)).isEmpty with
    | false => rfl
    | true =>
      exfalso
      have hnil := List.isEmpty_iff.mp he
      rw [jsTrim_eq_nil_iff] at hnil
      have hcs := hnil c0 (by
        rw [List.mem_reverse]
        exact hc0 ▸ List.mem_cons_self c0 r0)
      rw [head_dropWhile_false hc0] at hcs
      cases hcs
  simp [List.filter, hq1, hq2]

/-- C7: a candidate block of exactly one header line (with at least one
non-empty cell) and one separator line parses to a table with those
headers and no rows; a single-line block parses to no table; and in
every parsed table each row comes from a line at index ≥ 2 of the
cleaned block — the separator line (index 1) is never represented as a
row. -/
theorem parseTable_shape :
    (∀ h s : JStr, '\n' ∉ h → '\n' ∉ s →
      (∃ c ∈ h, isJsSpace c = false) → (∃ c ∈ s, isJsSpace c = false) →
      cellSplit h ≠ [] →
      parseTable (h ++ '\n' :: s)
        = some ⟨cellSplit h, [], h ++ '\n' :: s⟩ ∧ 0 < (cellSplit h).length)
    ∧ (∀ h : JStr, '\n' ∉ h → parseTable h = none)
    ∧ (∀ (text : JStr) (t : Table), parseTable text = some t →
        ∀ r ∈ t.rows, ∃ l ∈ (cleanTableLines text).drop 2, r = rowOfLine l) := by
  refine ⟨?_, ?_, ?_⟩
  · intro h s hn hsn hh hs hcells
    have hpair := cleanTableLines_pair hn hsn hh hs
    constructor
    · have hsome : parseTable (h ++ '\n' :: s)
          = some ⟨cellSplit (h.dropWhile isJsSpace), [], h ++ '\n' :: s⟩ := by
        simp [parseTable, hpair]
      rw [hsome, cellSplit_dropWhile_ws]
    · exact List.length_pos_of_ne_nil hcells
  · intro h hn
    unfold parseTable cleanTableLines
    have hnj : '\n' ∉ jsTrim h := fun hm => hn (mem_jsTrim_subset hm)
    rw [show splitLines (jsTrim h) = [jsTrim h] from splitOnChar_no_sep hnj]
    have hlen : ((List.filter (fun l => ¬ (jsTrim l).isEmpty) [jsTrim h]).length
        < 2) :=
      lt_of_le_of_lt (List.length_filter_le _ _) (by norm_num)
    rw [if_pos hlen]
  · intro text t hpt r hr
    simp only [parseTable] at hpt
    split at hpt
    · cases hpt
    · cases hpt
      simp only at hr
      rcases List.mem_filterMap.mp hr with ⟨l, hl, heq⟩
      refine ⟨l, hl, ?_⟩
      split at heq
      · cases heq
        rfl
      · cases heq

/-- C7 witness: the header/separator case at a concrete block. -/
theorem parseTable_shape_witness :
    parseTable (str "| A | B |" ++ '\n' :: str "| --- | --- |")
      = some ⟨cellSplit (str "| A | B |"), [],
          str "| A | B |" ++ '\n' :: str "| --- | --- |"⟩
    ∧ 0 < (cellSplit (str "| A | B |")).length :=
  parseTable_shape.1 (str "| A | B |") (str "| --- | --- |")
    (by decide) (by decide) (by decide) (by decide) (by decide)

/-! ## C9: extractKeywords and the token scan -/

/-- A Latin alphanumeric character is not a Hangul syllable. -/
theorem latin_not_hangul {c : Char} (h : isLatinAlnum c = true) :
    isHangul c = false := by
  unfold isLatinAlnum isLatinLetter isAsciiDigit at h
  unfold isHangul
  simp only [decide_eq_true_eq] at h
  simp only [decide_eq_false_iff_not]
  omega

/-- Skipping an already-consumed prefix resumes the token scan at the
remainder. -/
theorem tokenizeAux_skip (pre : JStr) : ∀ s : JStr,
    tokenizeAux (pre ++ s) pre.length = tokenizeAux s 0 := by
  induction pre with
  | nil => intro s; rfl
  | cons p pre' ih => intro s; exact ih s

/-- Token-scan step at a Hangul character: the maximal Hangul run is the
token and the scan resumes after it. -/
theorem tokenize_cons_hangul {c : Char} (rest : JStr) (hc : isHangul c = true) :
    tokenize (c :: rest)
      = (c :: rest.takeWhile isHangul) :: tokenize (rest.dropWhile isHangul) := by
  show tokenizeAux (c :: rest) 0 = _
  have h1 : tokenizeAux (c :: rest) 0
      = (c :: rest.takeWhile isHangul) ::
        tokenizeAux rest (rest.takeWhile isHangul).length := by
    simp [tokenizeAux, hc]
  rw [h1]
  have h2 : tokenizeAux rest (rest.takeWhile isHangul).length
      = tokenizeAux (rest.dropWhile isHangul) 0 := by
    have hs := tokenizeAux_skip (rest.takeWhile isHangul)
      (rest.dropWhile isHangul)
    rwa [List.takeWhile_append_dropWhile] at hs
  rw [h2]
  rfl

/-- Token-scan step at a Latin letter: the letter followed by the maximal
alphanumeric run is the token and the scan resumes after it. -/
theorem tokenize_cons_latin {c : Char} (rest : JStr)
    (hc : isHangul c = false) (hl : isLatinLetter c = true) :
    tokenize (c :: rest)
      = (c :: rest.takeWhile isLatinAlnum) ::
        tokenize (rest.dropWhile isLatinAlnum) := by
  show tokenizeAux (c :: rest) 0 = _
  have h1 : tokenizeAux (c :: rest) 0
      = (c :: rest.takeWhile isLatinAlnum) ::
        tokenizeAux rest (rest.takeWhile isLatinAlnum).length := by
    simp [tokenizeAux, hc, hl]
  rw [h1]
  have h2 : tokenizeAux rest (rest.takeWhile isLatinAlnum).length
      = tokenizeAux (rest.dropWhile isLatinAlnum) 0 := by
    have hs := tokenizeAux_skip (rest.takeWhile isLatinAlnum)
      (rest.dropWhile isLatinAlnum)
    rwa [List.takeWhile_append_dropWhile] at hs
  rw [h2]
  rfl

/-- Token-scan step at a character that starts no token. -/
theorem tokenize_cons_other {c : Char} (rest : JStr)
    (h1 : isHangul c = false) (h2 : isLatinLetter c = false) :
    tokenize (c :: rest) = tokenize rest := by
  show tokenizeAux (c :: rest) 0 = tokenizeAux rest 0
  simp [tokenizeAux, h1, h2]

/-- Every token is a pure Hangul run or a pure Latin alphanumeric run;
in particular no token mixes the two classes. -/
theorem tokenize_pure (content : JStr) :
    ∀ w ∈ tokenize content,
      (∀ c ∈ w, isHangul c = true) ∨ (∀ c ∈ w, isLatinAlnum c = true) := by
  cases content with
  | nil =>
    intro w hw
    simp [tokenize, tokenizeAux] at hw
  | cons c rest =>
    intro w hw
    cases hh : isHangul c with
    | true =>
      rw [tokenize_cons_hangul rest hh] at hw
      rcases List.mem_cons.mp hw with hw | hw
      · subst hw
        left
        intro x hx
        rcases List.mem_cons.mp hx with hx | hx
        · subst hx; exact hh
        · exact List.mem_takeWhile_imp hx
      · exact tokenize_pure (rest.dropWhile isHangul) w hw
    | false =>
      cases hl : isLatinLetter c with
      | true =>
        rw [tokenize_cons_latin rest hh hl] at hw
        rcases List.mem_cons.mp hw with hw | hw
        · subst hw
          right
          intro x hx
          rcases List.mem_cons.mp hx with hx | hx
          · subst hx
            unfold isLatinAlnum
            simp [hl]
          · exact List.mem_takeWhile_imp hx
        · exact tokenize_pure (rest.dropWhile isLatinAlnum) w hw
      | false =>
        rw [tokenize_cons_other rest hh hl] at hw
        exact tokenize_pure rest w hw
  termination_by content.length
  decreasing_by
    all_goals simp only [List.length_cons]
    all_goals first
      | exact Nat.lt_succ_of_le ((List.dropWhile_sublist _).length_le)
      | exact Nat.lt_succ_of_le (Nat.le_refl _)

/-- `takeWhile`/`dropWhile` at a run boundary. -/
theorem takeWhile_append_boundary {p : Char → Bool} {xs : JStr} {y : Char}
    (ys : JStr) (hall : ∀ c ∈ xs, p c = true) (hy : p y = false) :
    (xs ++ y :: ys).takeWhile p = xs ∧ (xs ++ y :: ys).dropWhile p = y :: ys := by
  induction xs with
  | nil =>
    constructor
    · simp [List.takeWhile_cons, hy]
    · simp [List.dropWhile_cons, hy]
  | cons a t ih =>
    have ha : p a = true := hall a (List.mem_cons_self a t)
    have ht : ∀ c ∈ t, p c = true := fun c hc => hall c (List.mem_cons_of_mem a hc)
    rcases ih ht with ⟨ih1, ih2⟩
    constructor
    · simp [List.takeWhile_cons, ha, ih1]
    · simp [List.dropWhile_cons, ha, ih2]

/-- `takeWhile` keeps a fully matching list. -/
theorem takeWhile_eq_self_of_all {p : Char → Bool} {l : JStr}
    (h : ∀ c ∈ l, p c = true) : l.takeWhile p = l := by
  induction l with
  | nil => rfl
  | cons a t ih =>
    simp [List.takeWhile_cons, h a (List.mem_cons_self a t),
      ih (fun c hc => h c (List.mem_cons_of_mem a hc))]

/-- An adjacent Hangul run and Latin run are always two separate tokens. -/
theorem tokenize_boundary (hg lt : JStr) (h1 : hg ≠ []) (h2 : lt ≠ [])
    (hH : ∀ c ∈ hg, isHangul c = true) (hA : ∀ c ∈ lt, isLatinAlnum c = true)
    (hL : isLatinLetter (lt.headD ' ') = true) :
    tokenize (hg ++ lt) = [hg, lt] := by
  rcases List.exists_cons_of_ne_nil h1 with ⟨h0, hrest, rfl⟩
  rcases List.exists_cons_of_ne_nil h2 with ⟨l0, lrest, rfl⟩
  have hH0 : isHangul h0 = true := hH h0 (List.mem_cons_self h0 hrest)
  have hHrest : ∀ c ∈ hrest, isHangul c = true :=
    fun c hc => hH c (List.mem_cons_of_mem h0 hc)
  have hAl0 : isLatinAlnum l0 = true := hA l0 (List.mem_cons_self l0 lrest)
  have hAlrest : ∀ c ∈ lrest, isLatinAlnum c = true :=
    fun c hc => hA c (List.mem_cons_of_mem l0 hc)
  have hL0 : isLatinLetter l0 = true := hL
  have hl0nh : isHangul l0 = false := latin_not_hangul hAl0
  rw [List.cons_append, tokenize_cons_hangul _ hH0]
  rcases takeWhile_append_boundary (p := isHangul) (y := l0)
    lrest hHrest hl0nh with ⟨htw, hdw⟩
  rw [htw, hdw, tokenize_cons_latin lrest hl0nh hL0,
    takeWhile_eq_self_of_all hAlrest,
    List.dropWhile_eq_nil_iff.mpr hAlrest]
  rfl

/-- Membership in an `addKeyword` fold. -/
theorem foldl_addKeyword_mem (ws : List JStr) :
    ∀ (acc : List JStr) (x : JStr),
      x ∈ ws.foldl addKeyword acc ↔ x ∈ acc ∨ x ∈ ws := by
  induction ws with
  | nil => intro acc x; simp
  | cons w t ih =>
    intro acc x
    rw [List.foldl_cons, ih]
    unfold addKeyword
    by_cases hw : w ∈ acc
    · rw [if_pos hw]
      constructor
      · intro h
        rcases h with h | h
        · exact Or.inl h
        · exact Or.inr (List.mem_cons_of_mem w h)
      · intro h
        rcases h with h | h
        · exact Or.inl h
        · rcases List.mem_cons.mp h with h | h
          · exact Or.inl (h ▸ hw)
          · exact Or.inr h
    · rw [if_neg hw]
      simp only [List.mem_append, List.mem_singleton, List.mem_cons]
      tauto

/-- An `addKeyword` fold preserves distinctness. -/
theorem foldl_addKeyword_nodup (ws : List JStr) :
    ∀ acc : List JStr, acc.Nodup → (ws.foldl addKeyword acc).Nodup := by
  induction ws with
  | nil => exact fun _ h => h
  | cons w t ih =>
    intro acc hacc
    rw [List.foldl_cons]
    apply ih
    unfold addKeyword
    by_cases hw : w ∈ acc
    · rwa [if_pos hw]
    · rw [if_neg hw]
      refine List.Nodup.append hacc (List.nodup_singleton w) ?_
      intro a ha hb
      rw [List.mem_singleton] at hb
      exact hw (hb ▸ ha)

/-- `extractKeywords` as one deduplicating fold over the lowercased
title tokens followed by the lowercased content tokens. -/
theorem extractKeywords_eq (title content : JStr) :
    extractKeywords title content
      = (((splitWs title).filter (fun w => 1 < w.length)).map toLowerStr
          ++ (((tokenize content).filter (fun w => 2 < w.length)).take 50).map
            toLowerStr).foldl addKeyword [] := by
  simp only [extractKeywords, List.foldl_append, List.foldl_map]

/-- C9: the keyword set is a deduplicated collection whose members are
exactly the lowercased whitespace-split title tokens of length > 1
together with the lowercased first-50 content tokens of length > 2; every
content token is a pure Hangul or pure Latin alphanumeric run; and an
adjacent Hangul run and Latin run always yield two separate tokens,
never one. -/
theorem extractKeywords_spec :
    (∀ title content : JStr,
      (extractKeywords title content).Nodup
      ∧ (∀ w, w ∈ extractKeywords title content ↔
          w ∈ ((splitWs title).filter (fun x => 1 < x.length)).map toLowerStr
          ∨ w ∈ (((tokenize content).filter (fun x => 2 < x.length)).take 50).map
              toLowerStr))
    ∧ (∀ (content w : JStr), w ∈ tokenize content →
        (∀ c ∈ w, isHangul c = true) ∨ (∀ c ∈ w, isLatinAlnum c = true))
    ∧ (∀ hg lt : JStr, hg ≠ [] → lt ≠ [] →
        (∀ c ∈ hg, isHangul c = true) → (∀ c ∈ lt, isLatinAlnum c = true) →
        isLatinLetter (lt.headD ' ') = true →
        tokenize (hg ++ lt) = [hg, lt]) := by
  refine ⟨?_, tokenize_pure, tokenize_boundary⟩
  intro title content
  constructor
  · rw [extractKeywords_eq]
    exact foldl_addKeyword_nodup _ [] List.nodup_nil
  · intro w
    rw [extractKeywords_eq, foldl_addKeyword_mem, List.mem_append]
    simp

/-- C9 witness: the run boundary and keyword membership at concrete
inputs. -/
theorem extractKeywords_spec_witness :
    tokenize (str "한국어" ++ str "abc") = [str "한국어", str "abc"]
    ∧ (extractKeywords (str "My Title") (str "한국어abc")).Nodup := by
  constructor
  · exact extractKeywords_spec.2.2 (str "한국어") (str "abc")
      (by decide) (by decide) (by decide) (by decide) (by decide)
  · exact (extractKeywords_spec.1 (str "My Title") (str "한국어abc")).1

/-! ## C6, C10: the section scanner -/

/-- Scanner step at a heading line with no open section. -/
theorem secsLoop_none_cons_heading {l : JStr} {lv : Nat} {text : JStr}
    (rest : List JStr) (i : Nat) (hm : headingMatch l = some (lv, text)) :
    secsLoop (l :: rest) i none
      = secsLoop rest (i + 1) (some ⟨lv, jsTrim text, [], i⟩) := by
  simp [secsLoop, hm]

/-- Scanner step at a non-heading line with no open section. -/
theorem secsLoop_none_cons_not {l : JStr} (rest : List JStr) (i : Nat)
    (hm : headingMatch l = none) :
    secsLoop (l :: rest) i none = secsLoop rest (i + 1) none := by
  simp [secsLoop, hm]

/-- Closed form of the scanner with an open section: the open section is
finalized with all lines up to the next heading (or the end of input) as
its content, and the scan restarts at the next heading. -/
theorem secsLoop_some_eq (ls : List JStr) : ∀ (i : Nat) (c : PartSec),
    secsLoop ls i (some c)
      = (⟨c.level, c.title, c.contentLines ++ ls.takeWhile notHeading,
          c.lineStart, i + (ls.takeWhile notHeading).length - 1⟩ : Sec)
        :: secsLoop (ls.dropWhile notHeading)
            (i + (ls.takeWhile notHeading).length) none := by
  induction ls with
  | nil =>
    intro i c
    simp [secsLoop, finishSec]
  | cons l rest ih =>
    intro i c
    cases hm : headingMatch l with
    | some p =>
      obtain ⟨lv, text⟩ := p
      have hnh : notHeading l = false := by
        simp [notHeading, isHeadingLine, hm]
      simp only [List.takeWhile_cons, List.dropWhile_cons, hnh,
        Bool.false_eq_true, if_false, List.length_nil, List.append_nil,
        Nat.add_zero]
      rw [show secsLoop (l :: rest) i (some c)
          = finishSec c (i - 1)
            :: secsLoop rest (i + 1) (some ⟨lv, jsTrim text, [], i⟩) by
        simp [secsLoop, hm]]
      rw [show secsLoop (l :: rest) i none
          = secsLoop rest (i + 1) (some ⟨lv, jsTrim text, [], i⟩) by
        simp [secsLoop, hm]]
      simp [finishSec]
    | none =>
      have hnh : notHeading l = true := by
        simp [notHeading, isHeadingLine, hm]
      simp only [List.takeWhile_cons, List.dropWhile_cons, hnh, if_true,
        List.length_cons]
      rw [show secsLoop (l :: rest) i (some c)
          = secsLoop rest (i + 1)
              (some ⟨c.level, c.title, c.contentLines ++ [l], c.lineStart⟩) by
        simp [secsLoop, hm]]
      rw [ih (i + 1) ⟨c.level, c.title, c.contentLines ++ [l], c.lineStart⟩]
      have e1 : i + 1 + (rest.takeWhile notHeading).length
          = i + ((rest.takeWhile notHeading).length + 1) := by omega
      rw [e1]
      simp

/-- The scanner with an open section emits at least that section. -/
theorem secsLoop_some_ne_nil (ls : List JStr) (i : Nat) (c : PartSec) :
    secsLoop ls i (some c) ≠ [] := by
  rw [secsLoop_some_eq]
  simp

/-- The scanner starting at a heading line emits at least one section. -/
theorem secsLoop_none_ne_nil_of_heading {d : JStr} (D' : List JStr) (j : Nat)
    (hd : isHeadingLine d = true) : secsLoop (d :: D') j none ≠ [] := by
  obtain ⟨⟨lv, text⟩, hm⟩ := Option.isSome_iff_exists.mp hd
  rw [secsLoop_none_cons_heading D' j hm]
  exact secsLoop_some_ne_nil _ _ _

/-- The first heading index is the length of the non-heading prefix. -/
theorem findIdx_eq_takeWhile_length (ls : List JStr) :
    ls.findIdx isHeadingLine = (ls.takeWhile notHeading).length := by
  induction ls with
  | nil => simp
  | cons l rest ih =>
    cases hl : isHeadingLine l with
    | true =>
      have : notHeading l = false := by simp [notHeading, hl]
      simp [List.findIdx_cons, List.takeWhile_cons, hl, this]
    | false =>
      have : notHeading l = true := by simp [notHeading, hl]
      simp [List.findIdx_cons, List.takeWhile_cons, hl, this, ih]

/-- Master invariant of the section scanner started with no open
section: (a) sections start at or after the current index and satisfy
`lineStart ≤ lineEnd`; (b) the first section starts at the first heading
line; (c) consecutive sections are adjacent in line coordinates; (d) the
last section ends at the last line; (e) the heading lines and content
lines of the sections, in order, are exactly the lines from the first
heading on. -/
theorem secsLoop_none_master (ls : List JStr) : ∀ i : Nat,
    (∀ s ∈ secsLoop ls i none, i ≤ s.lineStart ∧ s.lineStart ≤ s.lineEnd)
    ∧ (∀ s, (secsLoop ls i none).head? = some s →
        s.lineStart = i + ls.findIdx isHeadingLine)
    ∧ List.Chain' (fun a b => b.lineStart = a.lineEnd + 1) (secsLoop ls i none)
    ∧ (∀ s, (secsLoop ls i none).getLast? = some s →
        s.lineEnd = i + ls.length - 1)
    ∧ ((secsLoop ls i none).map (fun s =>
        (ls[s.lineStart - i]?).toList ++ s.contentLines)).flatten
        = ls.drop (ls.findIdx isHeadingLine) := by
  cases ls with
  | nil =>
    intro i
    refine ⟨?_, ?_, ?_, ?_, ?_⟩ <;> simp [secsLoop]
  | cons l rest =>
    intro i
    cases hm : headingMatch l with
    | none =>
      have hstep : secsLoop (l :: rest) i none = secsLoop rest (i + 1) none :=
        secsLoop_none_cons_not rest i hm
      have hil : isHeadingLine l = false := by simp [isHeadingLine, hm]
      have hidx : (l :: rest).findIdx isHeadingLine
          = rest.findIdx isHeadingLine + 1 := by
        simp [List.findIdx_cons, hil]
      obtain ⟨ha, hb, hc, hd, hf⟩ := secsLoop_none_master rest (i + 1)
      refine ⟨?_, ?_, ?_, ?_, ?_⟩
      · intro s hs
        rw [hstep] at hs
        have h := ha s hs
        exact ⟨by omega, h.2⟩
      · intro s hs
        rw [hstep] at hs
        rw [hb s hs, hidx]
        omega
      · rw [hstep]
        exact hc
      · intro s hs
        rw [hstep] at hs
        rw [hd s hs]
        simp only [List.length_cons]
        omega
      · rw [hstep, hidx]
        have hmap : (secsLoop rest (i + 1) none).map (fun s =>
              ((l :: rest)[s.lineStart - i]?).toList ++ s.contentLines)
            = (secsLoop rest (i + 1) none).map (fun s =>
              (rest[s.lineStart - (i + 1)]?).toList ++ s.contentLines) := by
          apply List.map_congr_left
          intro s hs
          have h1 : i + 1 ≤ s.lineStart := (ha s hs).1
          have h2 : s.lineStart - i = (s.lineStart - (i + 1)) + 1 := by omega
          rw [h2, List.getElem?_cons_succ]
        rw [hmap, hf]
        rfl
    | some p =>
      obtain ⟨lv, text⟩ := p
      have hstep : secsLoop (l :: rest) i none
          = secsLoop rest (i + 1) (some ⟨lv, jsTrim text, [], i⟩) :=
        secsLoop_none_cons_heading rest i hm
      have hil : isHeadingLine l = true := by simp [isHeadingLine, hm]
      have hidx : (l :: rest).findIdx isHeadingLine = 0 := by
        simp [List.findIdx_cons, hil]
      have hsome := secsLoop_some_eq rest (i + 1) ⟨lv, jsTrim text, [], i⟩
      have hTD : (rest.takeWhile notHeading).length
          + (rest.dropWhile notHeading).length = rest.length := by
        conv_rhs => rw [← List.takeWhile_append_dropWhile notHeading rest]
        rw [List.length_append]
      have hDhead : ∀ d D', rest.dropWhile notHeading = d :: D' →
          isHeadingLine d = true := by
        intro d D' hdd
        have h := head_dropWhile_false hdd
        simpa [notHeading] using h
      obtain ⟨ha, hb, hc, hd, hf⟩ := secsLoop_none_master
        (rest.dropWhile notHeading)
        (i + 1 + (rest.takeWhile notHeading).length)
      refine ⟨?_, ?_, ?_, ?_, ?_⟩
      · intro s hs
        rw [hstep, hsome] at hs
        rcases List.mem_cons.mp hs with hs | hs
        · subst hs
          constructor
          · exact Nat.le_refl i
          · simp only
            omega
        · have h := ha s hs
          exact ⟨by omega, h.2⟩
      · intro s hs
        rw [hstep, hsome] at hs
        rw [List.head?_cons] at hs
        cases hs
        rw [hidx]
        simp
      · rw [hstep, hsome]
        rw [List.chain'_cons']
        constructor
        · intro y hy
          cases hD : rest.dropWhile notHeading with
          | nil =>
            rw [hD] at hy
            simp [secsLoop] at hy
          | cons d D' =>
            have hyls := hb y hy
            have hfd : (rest.dropWhile notHeading).findIdx isHeadingLine = 0 := by
              rw [hD, List.findIdx_cons, hDhead d D' hD]
              rfl
            rw [hfd] at hyls
            simp only
            omega
        · exact hc
      · intro s hs
        rw [hstep, hsome] at hs
        cases hD : rest.dropWhile notHeading with
        | nil =>
          rw [hD] at hs
          simp only [secsLoop, List.getLast?_singleton] at hs
          cases hs
          have hT : (rest.takeWhile notHeading).length = rest.length := by
            rw [hD] at hTD
            simpa using hTD
          simp only [List.length_cons]
          omega
        | cons d D' =>
          have hne : secsLoop (d :: D')
              (i + 1 + (rest.takeWhile notHeading).length) none ≠ [] :=
            secsLoop_none_ne_nil_of_heading D' _ (hDhead d D' hD)
          rw [hD] at hs
          rcases List.exists_cons_of_ne_nil hne with ⟨s0, tl, htl⟩
          rw [htl] at hs
          rw [show ((⟨lv, jsTrim text,
              [] ++ rest.takeWhile notHeading, i,
              i + 1 + (rest.takeWhile notHeading).length - 1⟩ : Sec)
              :: s0 :: tl).getLast? = (s0 :: tl).getLast? from
            List.getLast?_cons_cons] at hs
          rw [← htl] at hs
          rw [← hD] at hs
          have h := hd s hs
          rw [h]
          simp only [List.length_cons]
          omega
      · rw [hstep, hsome]
        rw [List.map_cons]
        have hfS0 : ((l :: rest)[(i : Nat) - i]?).toList
            ++ ([] ++ rest.takeWhile notHeading)
            = l :: rest.takeWhile notHeading := by
          rw [Nat.sub_self, List.getElem?_cons_zero]
          rfl
        have hmap : (secsLoop (rest.dropWhile notHeading)
              (i + 1 + (rest.takeWhile notHeading).length) none).map (fun s =>
              ((l :: rest)[s.lineStart - i]?).toList ++ s.contentLines)
            = (secsLoop (rest.dropWhile notHeading)
              (i + 1 + (rest.takeWhile notHeading).length) none).map (fun s =>
              ((rest.dropWhile notHeading)[s.lineStart
                - (i + 1 + (rest.takeWhile notHeading).length)]?).toList
                ++ s.contentLines) := by
          apply List.map_congr_left
          intro s hs
          have h1 := (ha s hs).1
          have h2 : s.lineStart - i = (s.lineStart - (i + 1)) + 1 := by omega
          rw [h2, List.getElem?_cons_succ]
          have h3 : rest[s.lineStart - (i + 1)]?
              = (rest.takeWhile notHeading ++ rest.dropWhile notHeading)[s.lineStart - (i + 1)]? := by
            rw [List.takeWhile_append_dropWhile]
          rw [h3, List.getElem?_append_right (by omega)]
          have h4 : s.lineStart - (i + 1) - (rest.takeWhile notHeading).length
              = s.lineStart - (i + 1 + (rest.takeWhile notHeading).length) := by
            omega
          rw [h4]
        rw [hmap]
        rw [List.flatten_cons, hf, hfS0]
        rw [hidx]
        cases hD : rest.dropWhile notHeading with
        | nil =>
          have hT : rest.takeWhile notHeading = rest := by
            have := List.takeWhile_append_dropWhile notHeading rest
            rw [hD] at this
            simpa using this
          simp [hT]
        | cons d D' =>
          have hfd : List.findIdx isHeadingLine (d :: D') = 0 := by
            rw [List.findIdx_cons, hDhead d D' hD]
            rfl
          rw [hfd]
          rw [List.drop_zero, List.drop_zero]
          have happ : rest.takeWhile notHeading ++ d :: D' = rest := by
            rw [← hD]
            exact List.takeWhile_append_dropWhile notHeading rest
          rw [List.cons_append, happ]
  termination_by ls.length
  decreasing_by
    all_goals simp only [List.length_cons]
    all_goals first
      | exact Nat.lt_succ_of_le (Nat.le_refl _)
      | exact Nat.lt_succ_of_le ((List.dropWhile_sublist _).length_le)

/-- C6: concatenating, in order, each section's heading line followed by
its content lines reproduces the document's lines from the first heading
on — the sections partition the document after the first heading, and
text before the first heading is discarded. -/
theorem sections_partition (content : JStr) :
    ((extractSections content).map (fun s =>
        ((splitLines content)[s.lineStart]?).toList ++ s.contentLines)).flatten
      = (splitLines content).drop
          ((splitLines content).findIdx isHeadingLine) := by
  have h := (secsLoop_none_master (splitLines content) 0).2.2.2.2
  show ((secsLoop (splitLines content) 0 none).map (fun s =>
      ((splitLines content)[s.lineStart]?).toList ++ s.contentLines)).flatten = _
  rw [← h]
  congr 1

/-- C10: sections are contiguous and non-overlapping in line
coordinates: `lineStart ≤ lineEnd` for every section, the first section
starts at the first heading line, each subsequent section starts right
after the previous one ends, and the last section ends at the last line
of the input. -/
theorem sections_coordinates (content : JStr) :
    (∀ s ∈ extractSections content, s.lineStart ≤ s.lineEnd)
    ∧ (∀ s, (extractSections content).head? = some s →
        s.lineStart = (splitLines content).findIdx isHeadingLine)
    ∧ List.Chain' (fun a b => b.lineStart = a.lineEnd + 1)
        (extractSections content)
    ∧ (∀ s, (extractSections content).getLast? = some s →
        s.lineEnd = (splitLines content).length - 1) := by
  obtain ⟨ha, hb, hc, hd, _⟩ := secsLoop_none_master (splitLines content) 0
  refine ⟨fun s hs => (ha s hs).2, fun s hs => ?_, hc, fun s hs => ?_⟩
  · rw [hb s hs]
    omega
  · rw [hd s hs]
    omega

/-- C10 witness: the coordinate invariants at a concrete two-section
document. -/
theorem sections_coordinates_witness :
    ((⟨1, str "A", [str "x"], 0, 1⟩ : Sec).lineStart
      = (splitLines (str "# A\nx\n## B")).findIdx isHeadingLine)
    ∧ (⟨1, str "A", [str "x"], 0, 1⟩ : Sec).lineStart
      ≤ (⟨1, str "A", [str "x"], 0, 1⟩ : Sec).lineEnd
    ∧ ((⟨2, str "B", [], 2, 2⟩ : Sec).lineEnd
      = (splitLines (str "# A\nx\n## B")).length - 1) :=
  ⟨(sections_coordinates (str "# A\nx\n## B")).2.1 _ (by decide),
   (sections_coordinates (str "# A\nx\n## B")).1 _ (by decide),
   (sections_coordinates (str "# A\nx\n## B")).2.2.2 _ (by decide)⟩

/-! ## C5: extractLinks -/

/-- Dropping the length of the matched prefix is `dropWhile`. -/
theorem drop_takeWhile_length (p : Char → Bool) (l : JStr) :
    l.drop (l.takeWhile p).length = l.dropWhile p := by
  calc l.drop (l.takeWhile p).length
      = ((l.takeWhile p) ++ l.dropWhile p).drop (l.takeWhile p).length := by
        rw [List.takeWhile_append_dropWhile]
    _ = l.dropWhile p := List.drop_left _ _

/-- The greedy group backed to the full run with a bare `)` right after
it: the match is the run with no title. -/
theorem tryUrlTitle_concrete (u : JStr) (hu : u ≠ []) :
    tryUrlTitle (u ++ [')']) u.length = some (u, none, []) := by
  obtain ⟨u0, us, rfl⟩ := List.exists_cons_of_ne_nil hu
  have hdrop : ((u0 :: us) ++ [')']).drop (us.length + 1) = [')'] := by
    have h := List.drop_left (u0 :: us) [')']
    simp only [List.length_cons] at h
    exact h
  have htake : ((u0 :: us) ++ [')']).take (us.length + 1) = u0 :: us := by
    have h := List.take_left (u0 :: us) [')']
    simp only [List.length_cons] at h
    exact h
  show tryUrlTitle ((u0 :: us) ++ [')']) (us.length + 1) = _
  unfold tryUrlTitle
  rw [hdrop]
  have hmtp : matchTitleParen [')'] = none := by decide
  rw [hmtp, htake]
  rfl

/-- The inline matcher on a whole well-formed link: display text, the
full parenthesized run as url, no title, nothing left over. -/
theorem tryInline_concrete (t u : JStr) (ht : t ≠ []) (htb : ']' ∉ t)
    (hu : u ≠ []) (hup : ')' ∉ u) :
    tryInline ('[' :: (t ++ (']' :: ('(' :: (u ++ [')'])))))
      = some (⟨t, u, none⟩, []) := by
  have hbt := takeWhile_append_boundary
    (p := fun c => decide (¬ c = ']')) (y := ']') ('(' :: (u ++ [')']))
    (fun c hc => by
      simp only [decide_eq_true_eq]
      exact fun e => htb (e ▸ hc))
    (by simp)
  have hbu := takeWhile_append_boundary
    (p := fun c => decide (¬ c = ')')) (y := ')') ([] : JStr)
    (fun c hc => by
      simp only [decide_eq_true_eq]
      exact fun e => hup (e ▸ hc))
    (by simp)
  obtain ⟨t0, ts, rfl⟩ := List.exists_cons_of_ne_nil ht
  simp only [tryInline]
  rw [hbt.1]
  have hdt : ((t0 :: ts) ++ (']' :: ('(' :: (u ++ [')'])))).drop
      (t0 :: ts).length = ']' :: ('(' :: (u ++ [')'])) := List.drop_left _ _
  rw [hdt]
  simp only [List.isEmpty_cons, Bool.false_eq_true, if_false]
  have hbu1 : (u ++ [')']).takeWhile (fun c => decide (¬ c = ')')) = u := by
    have h := hbu.1
    simpa using h
  rw [hbu1, tryUrlTitle_concrete u hu]

/-- Skipping an already-consumed prefix resumes the inline scan at the
remainder. -/
theorem inlineScanAux_skip (pre : JStr) : ∀ s : JStr,
    inlineScanAux (pre ++ s) pre.length = inlineScanAux s 0 := by
  induction pre with
  | nil => intro s; rfl
  | cons p pre' ih => intro s; exact ih s

/-- The inline scan of a whole well-formed link yields that one link. -/
theorem inlineScan_concrete (t u : JStr) (ht : t ≠ []) (htb : ']' ∉ t)
    (hu : u ≠ []) (hup : ')' ∉ u) :
    inlineScan ('[' :: (t ++ (']' :: ('(' :: (u ++ [')'])))))
      = [⟨t, u, none⟩] := by
  have hti := tryInline_concrete t u ht htb hu hup
  show inlineScanAux ('[' :: (t ++ (']' :: ('(' :: (u ++ [')']))))) 0 = _
  have hstep : inlineScanAux ('[' :: (t ++ (']' :: ('(' :: (u ++ [')']))))) 0
      = (⟨t, u, none⟩ : Link)
        :: inlineScanAux (t ++ (']' :: ('(' :: (u ++ [')']))))
          ((t ++ (']' :: ('(' :: (u ++ [')'])))).length
            - ([] : JStr).length) := by
    simp only [inlineScanAux, hti]
  rw [hstep]
  have hskip : inlineScanAux (t ++ (']' :: ('(' :: (u ++ [')']))))
      ((t ++ (']' :: ('(' :: (u ++ [')'])))).length) = [] := by
    have h := inlineScanAux_skip (t ++ (']' :: ('(' :: (u ++ [')'])))) []
    simpa using h
  simpa using hskip

/-- A successful reference-link match consumes two `]` characters. -/
theorem tryRef_count {s : JStr} {pr : (JStr × JStr) × JStr}
    (h : tryRef s = some pr) : 2 ≤ s.count ']' := by
  unfold tryRef at h
  split at h
  · rename_i c rest
    split at h
    · cases h
    · split at h
      · rename_i rest2 heq
        split at h
        · cases h
        · split at h
          · rename_i rest3 heq2
            rw [drop_takeWhile_length] at heq heq2
            have h1 : rest
                = rest.takeWhile (fun c => decide (¬ c = ']'))
                  ++ (']' :: '[' :: rest2) := by
              rw [← heq, List.takeWhile_append_dropWhile]
            have h2 : rest2
                = rest2.takeWhile (fun c => decide (¬ c = ']'))
                  ++ (']' :: rest3) := by
              rw [← heq2, List.takeWhile_append_dropWhile]
            have hc1 : 1 + rest2.count ']' ≤ rest.count ']' := by
              conv_rhs => rw [h1]
              simp [List.count_append, List.count_cons]
              omega
            have hc2 : 1 ≤ rest2.count ']' := by
              conv_rhs => rw [h2]
              simp [List.count_append, List.count_cons]
              omega
            simp only [List.count_cons]
            omega
          · cases h
      · cases h
  · cases h

/-- When the document holds at most one `]`, the reference scan finds
nothing. -/
theorem refScanAux_no_ref (content : JStr) : ∀ s : JStr, s.count ']' ≤ 1 →
    refScanAux content s 0 = [] := by
  intro s
  induction s with
  | nil => intro _; rfl
  | cons c rest ih =>
    intro hcount
    cases htr : tryRef (c :: rest) with
    | some pr =>
      exfalso
      have h2 := tryRef_count htr
      omega
    | none =>
      have hle : rest.count ']' ≤ 1 := by
        have h := List.count_cons ']' c rest
        omega
      have hstep : refScanAux content (c :: rest) 0
          = refScanAux content rest 0 := by
        simp only [refScanAux, htr]
      rw [hstep]
      exact ih hle

/-- The full link extraction of a single well-formed inline link. -/
theorem extractLinks_one_inline (t u : JStr) (ht : t ≠ []) (htb : ']' ∉ t)
    (hu : u ≠ []) (hup : ')' ∉ u) (hub : ']' ∉ u) :
    extractLinks ('[' :: (t ++ (']' :: ('(' :: (u ++ [')'])))))
      = [⟨t, u, none⟩] := by
  unfold extractLinks refScan
  rw [inlineScan_concrete t u ht htb hu hup]
  rw [refScanAux_no_ref _ _ (by
    simp [List.count_cons, List.count_append,
      List.count_eq_zero.mpr htb, List.count_eq_zero.mpr hub])]
  simp

/-- C5 (counterexample): on the inline link `[a](b "c")` the extractor
returns the whole parenthesized content `b "c"` as the url and no title;
the claimed link with url `b` and title `c` is not produced.  (The
greedy url group consumes the quoted title, so the optional title group
never participates in a successful match.) -/
theorem extractLinks_title_counterexample :
    extractLinks (str "[a](b \"c\")") = [⟨str "a", str "b \"c\"", none⟩]
    ∧ (⟨str "a", str "b", some (str "c")⟩ : Link)
        ∉ extractLinks (str "[a](b \"c\")") := by
  refine ⟨by decide, by decide⟩

/-- C5 (amended): for a plain inline link `[text](url)` the extractor
returns the display text and the url with no title; for an inline link
with a quoted title `[text](url "title")` it returns the display text,
the *entire* parenthesized content (url, space and quoted title) as the
url, and no title. -/
theorem extractLinks_inline_spec (t u v : JStr)
    (ht : t ≠ []) (htb : ']' ∉ t)
    (hu : u ≠ []) (hup : ')' ∉ u) (hub : ']' ∉ u)
    (hvp : ')' ∉ v) (hvb : ']' ∉ v) :
    extractLinks ('[' :: (t ++ (']' :: ('(' :: (u ++ [')'])))))
      = [⟨t, u, none⟩]
    ∧ extractLinks ('[' :: (t ++ (']' :: ('(' ::
        ((u ++ (' ' :: ('"' :: (v ++ ['"'])))) ++ [')'])))))
      = [⟨t, u ++ (' ' :: ('"' :: (v ++ ['"']))), none⟩] := by
  constructor
  · exact extractLinks_one_inline t u ht htb hu hup hub
  · refine extractLinks_one_inline t (u ++ (' ' :: ('"' :: (v ++ ['"']))))
      ht htb (by simp) ?_ ?_
    · intro hm
      rcases List.mem_append.mp hm with hm | hm
      · exact hup hm
      · rcases List.mem_cons.mp hm with hm | hm
        · cases hm
        · rcases List.mem_cons.mp hm with hm | hm
          · cases hm
          · rcases List.mem_append.mp hm with hm | hm
            · exact hvp hm
            · exact absurd (List.mem_singleton.mp hm) (by decide)
    · intro hm
      rcases List.mem_append.mp hm with hm | hm
      · exact hub hm
      · rcases List.mem_cons.mp hm with hm | hm
        · cases hm
        · rcases List.mem_cons.mp hm with hm | hm
          · cases hm
          · rcases List.mem_append.mp hm with hm | hm
            · exact hvb hm
            · exact absurd (List.mem_singleton.mp hm) (by decide)

/-- C5 witness: the amended statement applied at `[a](b)` and
`[a](b "cd")`. -/
theorem extractLinks_inline_spec_witness :
    extractLinks (str "[a](b)") = [⟨str "a", str "b", none⟩]
    ∧ extractLinks (str "[a](b \"cd\")")
      = [⟨str "a", str "b \"cd\"", none⟩] := by
  have h := extractLinks_inline_spec (str "a") (str "b") (str "cd")
    (by decide) (by decide) (by decide) (by decide) (by decide) (by decide)
    (by decide)
  constructor
  · rw [show str "[a](b)"
        = '[' :: (str "a" ++ (']' :: ('(' :: (str "b" ++ [')'])))) by decide]
    exact h.1
  · rw [show str "[a](b \"cd\")"
        = '[' :: (str "a" ++ (']' :: ('(' ::
            ((str "b" ++ (' ' :: ('"' :: (str "cd" ++ ['"'])))) ++ [')'])))) by
      decide]
    rw [show str "b \"cd\""
        = str "b" ++ (' ' :: ('"' :: (str "cd" ++ ['"']))) by decide]
    exact h.2

end NicePay
